import Mathlib

/-!
Verification of the dependency-resolution core of mkdocs-get-deps
(src/mkdocs_get_deps/__init__.py), as a shallow embedding.

Modelling conventions:
* YAML values are the inductive `Val` (strings, null, booleans, integers,
  mappings, sequences).  Mappings are association lists with string keys in
  insertion order and pairwise-distinct keys, matching Python dicts built
  from parsed YAML.
* The sentinel `_NotFound` of the source is `Option.none`; a present YAML
  null is `some Val.vnull`.  The extracted `theme` variable collapses a
  present null to `none`, matching Python where both are the object `None`.
* A Python `set` of strings is a duplicate-free `List String`; set iteration
  order is never observable in the source (only membership, removal and a
  final `sorted`), so list order is irrelevant.
* Exceptions are modelled with `Except`: the `ValueError` for a non-mapping
  configuration root and the `TypeError` raised by `tuple(...)` coercion of
  a non-iterable value.
* Log output (`log.warning` / `log.info` / `log.error`) is modelled as a
  list of `Diag` values returned alongside the package list; `log.debug`
  calls carry no decision logic and are not modelled.  Messages elide the
  interpolated file path and project reprs, which are I/O artefacts.
* String operations (`partition`/split on a separator, `startswith`,
  slicing, `in`, `sorted`) are implemented structurally over `String.data`
  so that every definition evaluates by kernel reduction; each mirrors the
  corresponding Python operation on code points.
-/

namespace MkdocsGetDeps

/-- YAML-parsed Python value: string, None, bool, int, dict or list. -/
inductive Val where
  | str : String → Val
  | vnull : Val
  | vbool : Bool → Val
  | vint : Int → Val
  | map : List (String × Val) → Val
  | seq : List Val → Val

/-- Python dict lookup `d[k]` on an association list. -/
def lookupKey : List (String × Val) → String → Option Val
  | [], _ => none
  | (k0, v0) :: rest, k => if k0 = k then some v0 else lookupKey rest k

/-- Python dict assignment `d[k] = v`: replaces the value in place when the
key is present, else appends (insertion order preserved). -/
def setKey : List (String × Val) → String → Val → List (String × Val)
  | [], k, v => [(k, v)]
  | (k0, v0) :: rest, k, v =>
      if k0 = k then (k, v) :: rest else (k0, v0) :: setKey rest k v

/-- Python subscript `cfg[key]` with a string key: succeeds only on a dict
(`KeyError` when the key is absent, `TypeError` on any non-dict, both of
which `_dig` catches and turns into the not-found sentinel). -/
def lookupVal (v : Val) (k : String) : Option Val :=
  match v with
  | .map m => lookupKey m k
  | _ => none

/-- One element of the list-flattening loop in `_dig`: a single-key dict is
merged via `cfg.update(item)`, a bare string is assigned `cfg[item] = {}`,
anything else is skipped.  Both branches overwrite an existing value. -/
def flattenStep (cfg : List (String × Val)) (item : Val) : List (String × Val) :=
  match item with
  | .map [(k, v)] => setKey cfg k v
  | .str s => setKey cfg s (.map [])
  | _ => cfg

/-- List flattening of `_dig`: iterate the list in reverse and fold
`flattenStep` into an initially empty dict. -/
def flattenList (l : List Val) : List (String × Val) :=
  l.reverse.foldl flattenStep []

/-- Splitting a string on a separator character, structurally over the
character list; models repeated `str.partition` (and `str.split`). -/
def splitCharGo (sep : Char) : List Char → List Char → List String
  | [], acc => [String.mk acc.reverse]
  | c :: cs, acc =>
      if c = sep then String.mk acc.reverse :: splitCharGo sep cs []
      else splitCharGo sep cs (c :: acc)

/-- Split a string on a single-character separator. -/
def splitChar (sep : Char) (s : String) : List String :=
  splitCharGo sep s.data []

/-- Recursive core of `_dig`, with the dotted path pre-split into segments
(the source peels one segment per call via `keys.partition(".")`).  Returns
`none` for the `_NotFound` sentinel.  A list value is flattened into a dict
before it is returned or descended into. -/
def digGo : Val → List String → Option Val
  | _, [] => none
  | cfg, key :: rest =>
      match lookupVal cfg key with
      | none => none
      | some c =>
          let c := match c with
            | .seq l => Val.map (flattenList l)
            | other => other
          match rest with
          | [] => some c
          | _ => digGo c rest

/-- Python `_dig(cfg, keys)`: read a dotted path such as `theme.locale` out
of the configuration, or report not-found (`none`). -/
def dig (cfg : Val) (keys : String) : Option Val :=
  digGo cfg (splitChar (Char.ofNat 46) keys)

/-- Element collection for `tuple(...)` applied to a list value. -/
def stringsSeq : List Val → Except Unit (List String)
  | [] => .ok []
  | .str s :: rest =>
      match stringsSeq rest with
      | .ok t => .ok (s :: t)
      | .error e => .error e
  | _ :: _ => .error ()

/-- Python `_strings(obj)`: a string becomes a one-element tuple, anything
else goes through `tuple(obj)` — for a dict that yields its keys, for a list
its elements (string elements per the catalog schema; a non-string element
would fail later type checks and is folded into the same error), and for a
non-iterable scalar it raises `TypeError`, modelled as `Except.error`. -/
def strings : Val → Except Unit (List String)
  | .str s => .ok [s]
  | .map m => .ok (m.map Prod.fst)
  | .seq l => stringsSeq l
  | _ => .error ()

/-- Coercion `_strings(_dig(cfg, key))`: the not-found sentinel is the empty
tuple `()`, which `tuple(...)` turns into the empty sequence. -/
def stringsOfDig : Option Val → Except Unit (List String)
  | none => .ok []
  | some v => strings v

/-- Python `c in s` for a single character (the separator test). -/
def strContains (s : String) (c : Char) : Bool :=
  s.data.contains c

/-- Python `s.startswith(p)`. -/
def strStartsWith (s p : String) : Bool :=
  p.data.isPrefixOf s.data

/-- Python slicing `s[n:]`. -/
def strDrop (s : String) (n : Nat) : String :=
  String.mk (s.data.drop n)

/-- Python `len(s)` in code points. -/
def strLen (s : String) : Nat :=
  s.data.length

/-- Lexicographic comparison of code-point lists, the order Python uses to
compare and sort strings. -/
def charListLe : List Char → List Char → Bool
  | [], _ => true
  | _ :: _, [] => false
  | a :: as, b :: bs =>
      if a < b then true else if b < a then false else charListLe as bs

/-- Python string comparison `a <= b`. -/
def strLe (a b : String) : Bool :=
  charListLe a.data b.data

/-- Proposition form of `strLe`, used as the sorting relation. -/
def strLeR (a b : String) : Prop :=
  strLe a b = true

instance : DecidableRel strLeR :=
  fun a b => inferInstanceAs (Decidable (strLe a b = true))

/-- Python `sorted(...)` on a collection of strings. -/
def sortStrings (l : List String) : List String :=
  List.insertionSort strLeR l

/-- Python `str.capitalize()`: first character upper-cased, rest
lower-cased. -/
def pyCapitalize (s : String) : String :=
  match s.data with
  | [] => String.mk []
  | c :: cs => String.mk (c.toUpper :: cs.map Char.toLower)

/-- Single-quote character, kept out of string literals. -/
def sq : String := String.mk [Char.ofNat 39]

/-- Capability kind, the `_PluginKind` dataclass: its `projects_key` names
the catalog field and its `entry_points_key` the local-registry group. -/
inductive Kind where
  | theme
  | plugin
  | extension
deriving DecidableEq, Repr

/-- Catalog field name for a kind (`projects_key`). -/
def Kind.projectsKey : Kind → String
  | .theme => "mkdocs_theme"
  | .plugin => "mkdocs_plugin"
  | .extension => "markdown_extension"

/-- Local-registry group for a kind (`entry_points_key`). -/
def Kind.entryPointsKey : Kind → String
  | .theme => "mkdocs.themes"
  | .plugin => "mkdocs.plugins"
  | .extension => "markdown.extensions"

/-- Python `str(kind)`: `projects_key.rpartition("_")[-1]`, the suffix after
the last underscore. -/
def Kind.str (k : Kind) : String :=
  (splitChar (Char.ofNat 95) k.projectsKey).getLastD (String.mk [])

/-- One catalog `Project` record.  The per-kind capability declarations and
the packages of an extra-dependency rule are stored after the `_strings`
coercion (a plain string stands for its one-element list, an absent field
for the empty list), per the schema in the source docstring; the keys of
`extra_dependencies` are dotted configuration paths.  `pypi_id` and
`github_id` are present iff the corresponding key is in the record. -/
structure Project where
  mkdocs_theme : List String := []
  mkdocs_plugin : List String := []
  markdown_extension : List String := []
  pypi_id : Option String := none
  github_id : Option String := none
  extra_dependencies : List (String × List String) := []
deriving DecidableEq, Repr

/-- Declared capability names of a project for a kind:
`_strings(project.get(kind.projects_key, ()))`. -/
def availFor (p : Project) : Kind → List String
  | .theme => p.mkdocs_theme
  | .plugin => p.mkdocs_plugin
  | .extension => p.markdown_extension

/-- One logger event: `log.warning`, `log.info` or `log.error`. -/
inductive Diag where
  | warn : String → Diag
  | info : String → Diag
  | error : String → Diag
deriving DecidableEq, Repr

/-- Mutable state of the catalog scan: the result set
`packages_to_install`, the three wanted sets (which the scan shrinks in
place), the emitted log events, and — as instrumentation for stating the
matching invariant — the names removed from each wanted set, in removal
order. -/
structure ScanSt where
  pkgs : List String
  wantedTheme : List String
  wantedPlugin : List String
  wantedExtension : List String
  matchedTheme : List String
  matchedPlugin : List String
  matchedExtension : List String
  logs : List Diag
deriving DecidableEq, Repr

/-- Wanted set of a kind. -/
def ScanSt.wanted (st : ScanSt) : Kind → List String
  | .theme => st.wantedTheme
  | .plugin => st.wantedPlugin
  | .extension => st.wantedExtension

/-- Matched-name instrumentation of a kind. -/
def ScanSt.matched (st : ScanSt) : Kind → List String
  | .theme => st.matchedTheme
  | .plugin => st.matchedPlugin
  | .extension => st.matchedExtension

/-- Replace the wanted set of a kind. -/
def ScanSt.setWanted (st : ScanSt) : Kind → List String → ScanSt
  | .theme, w => { st with wantedTheme := w }
  | .plugin, w => { st with wantedPlugin := w }
  | .extension, w => { st with wantedExtension := w }

/-- Append a name to the matched instrumentation of a kind. -/
def ScanSt.pushMatched (st : ScanSt) : Kind → String → ScanSt
  | .theme, n => { st with matchedTheme := st.matchedTheme ++ [n] }
  | .plugin, n => { st with matchedPlugin := st.matchedPlugin ++ [n] }
  | .extension, n => { st with matchedExtension := st.matchedExtension ++ [n] }

/-- Condition of the theme-namespace rewrite, the conjunction tested by the
source: the entry contains a slash, the kind is the plugin kind, the entry
starts with the theme name plus a slash, the suffix after that prefix is
wanted and the full name is not. -/
def nsCond (t : String) (kind : Kind) (wanted : List String) (e : String) :
    Prop :=
  strContains e (Char.ofNat 47) = true ∧ kind = Kind.plugin ∧
    strStartsWith e (t ++ String.mk [Char.ofNat 47]) = true ∧
    strDrop e (strLen t + 1) ∈ wanted ∧ e ∉ wanted

instance (t : String) (kind : Kind) (wanted : List String) (e : String) :
    Decidable (nsCond t kind wanted e) :=
  inferInstanceAs (Decidable (strContains e (Char.ofNat 47) = true ∧
    kind = Kind.plugin ∧
    strStartsWith e (t ++ String.mk [Char.ofNat 47]) = true ∧
    strDrop e (strLen t + 1) ∈ wanted ∧ e ∉ wanted))

/-- Theme-namespace rewrite of a declared name: when `nsCond` holds for a
known theme, the entry is replaced by its suffix after the theme prefix.
Python formats the raw theme object into the prefix; only string themes are
modelled (a non-string theme formats to its repr, which is not a catalog
name). -/
def effEntry (theme : Option String) (kind : Kind) (wanted : List String)
    (e : String) : String :=
  match theme with
  | none => e
  | some t =>
      if nsCond t kind wanted e
      then strDrop e (strLen t + 1)
      else e

/-- Install identifier of a project: `pypi_id` when that key is present,
else the GitHub URL synthesised from `github_id`, else nothing. -/
def installIdOf (p : Project) : Option String :=
  match p.pypi_id with
  | some pid => some pid
  | none =>
      match p.github_id with
      | some gid => some ("git+https://github.com/" ++ gid)
      | none => none

/-- Set insertion `packages_to_install.add(x)`. -/
def addPkg (pkgs : List String) (x : String) : List String :=
  List.insert x pkgs

/-- Extra-dependency expansion of a matched project: each rule whose dotted
path resolves in the configuration (to anything, including null) merges its
packages into the result set. -/
def addExtras (cfg : Val) (p : Project) (pkgs : List String) : List String :=
  p.extra_dependencies.foldl
    (fun acc kp => if (dig cfg kp.1).isSome then kp.2.foldl addPkg acc else acc)
    pkgs

/-- Text of the `log.error` for a project with no install identifier (the
trailing project repr of the source message is elided). -/
def cantInstallMsg (kind : Kind) (e : String) : String :=
  "Can" ++ sq ++ "t find how to install " ++ kind.str ++ " " ++ sq ++ e ++ sq

/-- Processing of one declared name of one project for one kind: apply the
namespace rewrite, and on a wanted name resolve the install identifier, add
it and the active extra dependencies, and remove the name from the wanted
set — or log an error and change nothing else when no identifier exists. -/
def procEntry (cfg : Val) (theme : Option String) (kind : Kind) (p : Project)
    (st : ScanSt) (e0 : String) : ScanSt :=
  let w := st.wanted kind
  let e := effEntry theme kind w e0
  if e ∈ w then
    match installIdOf p with
    | some inst =>
        let st1 := { st with pkgs := addExtras cfg p (addPkg st.pkgs inst) }
        (st1.setWanted kind ((st1.wanted kind).erase e)).pushMatched kind e
    | none => { st with logs := st.logs ++ [Diag.error (cantInstallMsg kind e)] }
  else st

/-- Processing of one project for one kind, over its declared names in
order. -/
def procKind (cfg : Val) (theme : Option String) (p : Project) (kind : Kind)
    (st : ScanSt) : ScanSt :=
  (availFor p kind).foldl (procEntry cfg theme kind p) st

/-- Processing of one project: the three kinds in the fixed order theme,
plugin, extension. -/
def procProject (cfg : Val) (theme : Option String) (p : Project)
    (st : ScanSt) : ScanSt :=
  procKind cfg theme p .extension (procKind cfg theme p .plugin (procKind cfg theme p .theme st))

/-- The catalog scan: every project in catalog order. -/
def scan (cfg : Val) (theme : Option String) (projects : List Project)
    (st : ScanSt) : ScanSt :=
  projects.foldl (fun s p => procProject cfg theme p s) st

/-- Extraction of the `theme` variable: `cfg["theme"]["name"]`, falling back
to `cfg.get("theme")` on `KeyError` or `TypeError`; a present YAML null
gives the Python object `None` and is collapsed to `none`. -/
def themeOf (cfg : Val) : Option Val :=
  let raw := lookupVal cfg "theme"
  let t :=
    match raw with
    | some tv =>
        match lookupVal tv "name" with
        | some nv => some nv
        | none => raw
    | none => none
  match t with
  | some .vnull => none
  | other => other

/-- Python `themes = {theme} if theme else set()`.  A falsy theme (absent,
null, empty string, zero, false, empty collection) gives the empty set; a
truthy string its singleton.  A truthy non-string is not modelled as a
wanted name: a dict or list would make the Python set constructor raise,
and a number can never equal a declared catalog name. -/
def themesList (t : Option Val) : List String :=
  match t with
  | some (.str s) => if s = String.mk [] then [] else [s]
  | _ => []

/-- Theme name used by the namespace rewrite, where Python checks
`theme is not None` and formats the theme into the prefix; string themes
only, per the note on `effEntry`. -/
def themeNs (cfg : Val) : Option String :=
  match themeOf cfg with
  | some (.str t) => some t
  | _ => none

/-- Presence test of the four marker keys deciding whether the document
looks like a site configuration. -/
def markersPresent (cfg : Val) : Bool :=
  ["site_name", "theme", "plugins", "markdown_extensions"].any
    (fun k => (lookupVal cfg k).isSome)

/-- Condition for the i18n variant:
`_dig(cfg, "theme.locale") not in (_NotFound, "en")`. -/
def localeSelectsI18n (cfg : Val) : Bool :=
  match dig cfg "theme.locale" with
  | none => false
  | some (.str s) => if s = "en" then false else true
  | some _ => true

/-- Initial content of `packages_to_install`: on a document with a marker
key, exactly one of the two base identifiers, chosen by the locale rule. -/
def seedPkgs (cfg : Val) : List String :=
  if markersPresent cfg then
    if localeSelectsI18n cfg then ["mkdocs[i18n]"] else ["mkdocs"]
  else []

/-- Warning emitted when no marker key is present (file path elided). -/
def notConfigMsg : String :=
  "The file does not seem to be a mkdocs.yml config file"

/-- Log events emitted before the scan. -/
def seedLogs (cfg : Val) : List Diag :=
  if markersPresent cfg then [] else [Diag.warn notConfigMsg]

/-- Exceptions get_deps can raise: the `ValueError` for a non-mapping
configuration root, and the `TypeError` from coercing a non-iterable
`plugins` or `markdown_extensions` value (or other non-iterable uses). -/
inductive GDErr where
  | valueError
  | typeError
deriving DecidableEq, Repr

/-- Construction of the initial scan state from the configuration: root
type check, seed packages and warning, wanted sets built from the theme,
`plugins` and `markdown_extensions` with the built-in names removed. -/
def setup (cfg : Val) : Except GDErr ScanSt :=
  match cfg with
  | .map _ =>
      match stringsOfDig (dig cfg "plugins"),
            stringsOfDig (dig cfg "markdown_extensions") with
      | .ok pl, .ok ex =>
          .ok { pkgs := seedPkgs cfg
                wantedTheme := (themesList (themeOf cfg)).filter
                  (fun s => decide (s ≠ "mkdocs" ∧ s ≠ "readthedocs"))
                wantedPlugin := pl.dedup.filter (fun s => decide (s ≠ "search"))
                wantedExtension := ex.dedup
                matchedTheme := []
                matchedPlugin := []
                matchedExtension := []
                logs := seedLogs cfg }
      | _, _ => .error .typeError
  | _ => .error .valueError

/-- Local extension-point registry, the collaborator behind
`_entry_points(group)`: for a group and a name, `none` when no entry point
is registered, else the owning distribution name when known
(`ep.dist`, which itself may be `None`). -/
def EPLookup : Type :=
  String → String → Option (Option String)

/-- Shared diagnostic text
`f"{str(kind).capitalize()} '{entry_name}' is not provided by any registered project"`. -/
def notProvidedMsg (kind : Kind) (n : String) : String :=
  pyCapitalize kind.str ++ " " ++ sq ++ n ++ sq ++
    " is not provided by any registered project"

/-- Local-registry fallback for one remaining name: look the name up among
the registered entry points of the kind; unless the owning distribution is
one of the two built-ins, emit a warning (no registration at all) or an
informational note (registered locally, with the distribution name appended
when known and non-empty). -/
def fallbackName (eps : EPLookup) (kind : Kind) (n : String) : List Diag :=
  let ep := eps kind.entryPointsKey n
  let dist : Option String :=
    match ep with
    | some d => d
    | none => none
  if dist ≠ some "mkdocs" ∧ dist ≠ some "Markdown" then
    match ep with
    | some d =>
        let msg := notProvidedMsg kind n ++ " but is installed locally"
        let msg :=
          match d with
          | some dn =>
              if dn = String.mk [] then msg
              else msg ++ " from " ++ sq ++ dn ++ sq
          | none => msg
        [Diag.info msg]
    | none => [Diag.warn (notProvidedMsg kind n)]
  else []

/-- Local-registry fallback for one kind, over the remaining wanted names in
sorted order. -/
def fallbackKind (eps : EPLookup) (kind : Kind) (wanted : List String) :
    List Diag :=
  (sortStrings wanted).flatMap (fallbackName eps kind)

/-- Local-registry fallback over the three kinds in order. -/
def fallbackAll (eps : EPLookup) (st : ScanSt) : List Diag :=
  fallbackKind eps .theme st.wantedTheme ++
    fallbackKind eps .plugin st.wantedPlugin ++
    fallbackKind eps .extension st.wantedExtension

/-- Return value of `get_deps` on success: the sorted package list, and the
log events in emission order. -/
structure GDOut where
  packages : List String
  logs : List Diag
deriving DecidableEq, Repr

/-- The resolution algorithm of `get_deps`, after the configuration and the
catalog have been parsed: build the initial state, scan the catalog, run
the local-registry fallback, return the sorted deduplicated package list. -/
def get_deps (cfg : Val) (projects : List Project) (eps : EPLookup) :
    Except GDErr GDOut :=
  match setup cfg with
  | .error e => .error e
  | .ok st0 =>
      let st := scan cfg (themeNs cfg) projects st0
      .ok { packages := sortStrings st.pkgs
            logs := st.logs ++ fallbackAll eps st }

/-- Empty local registry, for concrete runs. -/
def epsEmpty : EPLookup := fun _ _ => none

/-- Binding contributed by one sequence element during flattening: a
single-key mapping binds its key, a bare string binds itself to the empty
mapping, anything else binds nothing. -/
def bindsOf (item : Val) (n : String) : Option Val :=
  match item with
  | .map [(k, v)] => if k = n then some v else none
  | .str s => if s = n then some (Val.map []) else none
  | _ => none

/-- First element of the sequence, in original order, that binds the name —
the claim-side reading of which occurrence wins. -/
def firstOcc : List Val → String → Option Val
  | [], _ => none
  | item :: rest, n =>
      match bindsOf item n with
      | some v => some v
      | none => firstOcc rest n

/-- Test that a sequence element is a single-key mapping or a bare string,
the shapes the flattening consumes. -/
def entryLike : Val → Bool
  | .map [_] => true
  | .str _ => true
  | _ => false

/-- Modelled from the claim of C4 (spec words): a flattening step whose
bare-string branch records the name only when it is not already present,
never overwriting. -/
def flattenStepNoOverwrite (cfg : List (String × Val)) (item : Val) :
    List (String × Val) :=
  match item with
  | .map [(k, v)] => setKey cfg k v
  | .str s =>
      match lookupKey cfg s with
      | none => setKey cfg s (.map [])
      | some _ => cfg
  | _ => cfg

/-- Reverse-order flattening built on the no-overwrite step of the claim. -/
def flattenListNoOverwrite (l : List Val) : List (String × Val) :=
  l.reverse.foldl flattenStepNoOverwrite []

theorem lookupKey_setKey (m : List (String × Val)) (k : String) (v : Val)
    (n : String) :
    lookupKey (setKey m k v) n = if k = n then some v else lookupKey m n := by
  induction m with
  | nil => simp [setKey, lookupKey]
  | cons hd tl ih =>
      obtain ⟨k0, v0⟩ := hd
      by_cases h : k0 = k
      · subst h
        by_cases h2 : k0 = n <;> simp [setKey, lookupKey, h2]
      · by_cases h2 : k0 = n
        · subst h2
          simp [setKey, lookupKey, h, if_neg (fun hh : k = k0 => h hh.symm)]
        · simp [setKey, lookupKey, h, h2, ih]

theorem lookupKey_flattenStep (cfg : List (String × Val)) (item : Val)
    (n : String) :
    lookupKey (flattenStep cfg item) n =
      match bindsOf item n with
      | some v => some v
      | none => lookupKey cfg n := by
  match item with
  | .str s =>
      by_cases h : s = n <;> simp [flattenStep, bindsOf, lookupKey_setKey, h]
  | .vnull | .vbool _ | .vint _ | .seq _ => rfl
  | .map [] => rfl
  | .map [(k, v)] =>
      by_cases h : k = n <;> simp [flattenStep, bindsOf, lookupKey_setKey, h]
  | .map (x :: y :: t) => rfl

theorem firstOcc_append (a b : List Val) (n : String) :
    firstOcc (a ++ b) n =
      match firstOcc a n with
      | some v => some v
      | none => firstOcc b n := by
  induction a with
  | nil => simp [firstOcc]
  | cons x xs ih =>
      simp only [List.cons_append, firstOcc]
      cases bindsOf x n <;> simp [ih]

theorem lookupKey_foldl_flattenStep (xs : List Val)
    (cfg : List (String × Val)) (n : String) :
    lookupKey (xs.foldl flattenStep cfg) n =
      match firstOcc xs.reverse n with
      | some v => some v
      | none => lookupKey cfg n := by
  induction xs generalizing cfg with
  | nil => simp [firstOcc]
  | cons x xs ih =>
      simp only [List.foldl_cons, List.reverse_cons, ih, firstOcc_append]
      cases h : firstOcc xs.reverse n
      · simp only [lookupKey_flattenStep, firstOcc]
        cases bindsOf x n <;> simp
      · simp

theorem lookupKey_flattenList (l : List Val) (n : String) :
    lookupKey (flattenList l) n = firstOcc l n := by
  unfold flattenList
  rw [lookupKey_foldl_flattenStep]
  simp only [List.reverse_reverse]
  cases firstOcc l n <;> simp [lookupKey]

/-- C4, counterexample: on the sequence `["a", {"a": 1}]`, the reverse-order
traversal first records `a ↦ 1` from the single-key mapping, and the bare
string `"a"` then overwrites it with the empty mapping — the flattening of
the code differs from the no-overwrite flattening the claim describes, which
would keep `a ↦ 1`. -/
theorem claim_C4_counterexample :
    lookupKey (flattenList [Val.str "a", Val.map [("a", Val.vint 1)]]) "a" =
        some (Val.map []) ∧
    lookupKey (flattenListNoOverwrite [Val.str "a", Val.map [("a", Val.vint 1)]]) "a" =
        some (Val.vint 1) ∧
    flattenList [Val.str "a", Val.map [("a", Val.vint 1)]] ≠
      flattenListNoOverwrite [Val.str "a", Val.map [("a", Val.vint 1)]] := by
  refine ⟨rfl, rfl, fun h => ?_⟩
  have h2 := congrArg (fun m => lookupKey m "a") h
  have e1 : lookupKey (flattenList [Val.str "a", Val.map [("a", Val.vint 1)]]) "a" =
      some (Val.map []) := rfl
  have e2 : lookupKey (flattenListNoOverwrite [Val.str "a", Val.map [("a", Val.vint 1)]]) "a" =
      some (Val.vint 1) := rfl
  simp only [e1, e2] at h2
  injection h2 with h3
  exact Val.noConfusion h3

/-- C4, amended: in the flattening step of `_dig`, a bare-string element is
always recorded with the empty mapping as its value, overwriting any value
already set for that key earlier in the reverse-order traversal (that is, by
an element occurring later in the original sequence); the net effect is that
the first occurrence in original order wins. -/
theorem claim_C4_amended (cfg : List (String × Val)) (s : String) :
    lookupKey (flattenStep cfg (Val.str s)) s = some (Val.map []) := by
  simp [flattenStep, lookupKey_setKey]

/-- C5: for a sequence whose elements are single-key mappings and bare
strings, the flat mapping produced by `_dig` associates to every name the
value of its first occurrence in original sequence order, a bare-string
occurrence contributing the empty mapping. -/
theorem claim_C5 (l : List Val) (_h : ∀ v ∈ l, entryLike v = true) (n : String) :
    lookupKey (flattenList l) n = firstOcc l n :=
  lookupKey_flattenList l n

/-- Witness for C5 at the sequence `["a", {"b": 2}, {"a": 1}]` and the name
`a`: the hypothesis holds and the kept value is the empty mapping from the
leading bare string. -/
theorem claim_C5_witness :
    (∀ v ∈ [Val.str "a", Val.map [("b", Val.vint 2)], Val.map [("a", Val.vint 1)]],
        entryLike v = true) ∧
    lookupKey (flattenList [Val.str "a", Val.map [("b", Val.vint 2)],
        Val.map [("a", Val.vint 1)]]) "a" =
      firstOcc [Val.str "a", Val.map [("b", Val.vint 2)],
        Val.map [("a", Val.vint 1)]] "a" ∧
    firstOcc [Val.str "a", Val.map [("b", Val.vint 2)],
        Val.map [("a", Val.vint 1)]] "a" = some (Val.map []) := by
  have h : ∀ v ∈ [Val.str "a", Val.map [("b", Val.vint 2)],
      Val.map [("a", Val.vint 1)]], entryLike v = true := by
    intro v hv
    simp only [List.mem_cons, List.not_mem_nil, or_false] at hv
    rcases hv with h1 | h1 | h1 <;> (rw [h1]; rfl)
  exact ⟨h, claim_C5 _ h "a", rfl⟩

theorem slash_data : ("/" : String).data = [Char.ofNat 47] := rfl

theorem decomp_data (t s : String) :
    (t ++ "/" ++ s).data = (t.data ++ [Char.ofNat 47]) ++ s.data := by
  simp [String.data_append, slash_data]

theorem strContains_decomp (t s : String) :
    strContains (t ++ "/" ++ s) (Char.ofNat 47) = true := by
  unfold strContains
  rw [List.contains, List.elem_iff, decomp_data]
  exact List.mem_append.2 (Or.inl (List.mem_append.2 (Or.inr (List.mem_singleton.2 rfl))))

theorem strStartsWith_decomp (t s : String) :
    strStartsWith (t ++ "/" ++ s) (t ++ String.mk [Char.ofNat 47]) = true := by
  unfold strStartsWith
  rw [List.isPrefixOf_iff_prefix]
  have h1 : (t ++ String.mk [Char.ofNat 47]).data = t.data ++ [Char.ofNat 47] := by
    simp [String.data_append]
  rw [h1, decomp_data]
  exact List.prefix_append _ _

theorem strDrop_decomp (t s : String) :
    strDrop (t ++ "/" ++ s) (strLen t + 1) = s := by
  unfold strDrop strLen
  rw [decomp_data]
  have hlen : t.data.length + 1 = (t.data ++ [Char.ofNat 47]).length := by simp
  rw [hlen, List.drop_left]

theorem strStartsWith_exists (e t : String)
    (h : strStartsWith e (t ++ String.mk [Char.ofNat 47]) = true) :
    ∃ s : String, e = t ++ "/" ++ s := by
  unfold strStartsWith at h
  rw [List.isPrefixOf_iff_prefix] at h
  obtain ⟨u, hu⟩ := h
  refine ⟨String.mk u, ?_⟩
  have h2 : (t ++ "/" ++ String.mk u).data = e.data := by
    rw [decomp_data]
    rw [← hu]
    simp [String.data_append]
  have h3 := congrArg String.mk h2
  exact h3.symm

/-- C3: a declared catalog name is treated as a match for its suffix after
the slash exactly when the kind is the plugin kind, a theme name is known,
the name decomposes as the theme name, a slash and a suffix, the suffix is
wanted and the full name is not; in every other situation the name is left
as itself, and an unwanted unrewritten name causes no state change at all,
so matching is by exact string equality against the wanted set. -/
theorem claim_C3 (theme : Option String) (kind : Kind) (wanted : List String)
    (e : String) :
    (∀ t s, theme = some t → kind = Kind.plugin → e = t ++ "/" ++ s →
        s ∈ wanted → e ∉ wanted → effEntry theme kind wanted e = s) ∧
    ((¬ ∃ t s, theme = some t ∧ kind = Kind.plugin ∧ e = t ++ "/" ++ s ∧
        s ∈ wanted ∧ e ∉ wanted) → effEntry theme kind wanted e = e) ∧
    (∀ cfg p st, st.wanted kind = wanted → effEntry theme kind wanted e = e →
        e ∉ wanted → procEntry cfg theme kind p st e = st) := by
  refine ⟨?_, ?_, ?_⟩
  · intro t s ht hk he hs hns
    subst ht hk
    simp only [effEntry]
    have hcond : nsCond t Kind.plugin wanted e := by
      subst he
      exact ⟨strContains_decomp t s, rfl, strStartsWith_decomp t s,
        by rw [strDrop_decomp]; exact hs, hns⟩
    rw [if_pos hcond]
    subst he
    exact strDrop_decomp t s
  · intro hnex
    cases theme with
    | none => rfl
    | some t =>
        simp only [effEntry]
        by_cases hcond : nsCond t kind wanted e
        · exfalso
          obtain ⟨hc, hk, hsw, hmem, hnm⟩ := hcond
          obtain ⟨s, hs⟩ := strStartsWith_exists e t hsw
          refine hnex ⟨t, strDrop e (strLen t + 1), rfl, hk, ?_, hmem, hnm⟩
          rw [hs, strDrop_decomp]
        · rw [if_neg hcond]
  · intro cfg p st hw heq hnm
    simp only [procEntry, hw, heq]
    rw [if_neg hnm]

/-- Witness for C3: with theme `material` and wanted plugin set `[tags]`,
the declared name `material/tags` is rewritten to `tags`. -/
theorem claim_C3_witness :
    ("material/tags" : String) = "material" ++ "/" ++ "tags" ∧
    "tags" ∈ ["tags"] ∧ ("material/tags" : String) ∉ ["tags"] ∧
    effEntry (some "material") Kind.plugin ["tags"] "material/tags" = "tags" := by
  refine ⟨rfl, by decide, by decide, ?_⟩
  exact (claim_C3 (some "material") Kind.plugin ["tags"] "material/tags").1
    "material" "tags" rfl rfl rfl (by decide) (by decide)

theorem wanted_withPkgs (st : ScanSt) (x : List String) (k : Kind) :
    ({ st with pkgs := x } : ScanSt).wanted k = st.wanted k := by
  cases k <;> rfl

theorem matched_withPkgs (st : ScanSt) (x : List String) (k : Kind) :
    ({ st with pkgs := x } : ScanSt).matched k = st.matched k := by
  cases k <;> rfl

theorem wanted_withLogs (st : ScanSt) (x : List Diag) (k : Kind) :
    ({ st with logs := x } : ScanSt).wanted k = st.wanted k := by
  cases k <;> rfl

theorem matched_withLogs (st : ScanSt) (x : List Diag) (k : Kind) :
    ({ st with logs := x } : ScanSt).matched k = st.matched k := by
  cases k <;> rfl

theorem wanted_setWanted_self (st : ScanSt) (k : Kind) (w : List String) :
    (st.setWanted k w).wanted k = w := by
  cases k <;> rfl

theorem wanted_setWanted_ne (st : ScanSt) (k : Kind) (w : List String)
    (k2 : Kind) (h : k2 ≠ k) : (st.setWanted k w).wanted k2 = st.wanted k2 := by
  cases k <;> cases k2 <;> first | rfl | exact absurd rfl h

theorem matched_setWanted (st : ScanSt) (k : Kind) (w : List String)
    (k2 : Kind) : (st.setWanted k w).matched k2 = st.matched k2 := by
  cases k <;> cases k2 <;> rfl

theorem pkgs_setWanted (st : ScanSt) (k : Kind) (w : List String) :
    (st.setWanted k w).pkgs = st.pkgs := by
  cases k <;> rfl

theorem logs_setWanted (st : ScanSt) (k : Kind) (w : List String) :
    (st.setWanted k w).logs = st.logs := by
  cases k <;> rfl

theorem wanted_pushMatched (st : ScanSt) (k : Kind) (n : String) (k2 : Kind) :
    (st.pushMatched k n).wanted k2 = st.wanted k2 := by
  cases k <;> cases k2 <;> rfl

theorem matched_pushMatched_self (st : ScanSt) (k : Kind) (n : String) :
    (st.pushMatched k n).matched k = st.matched k ++ [n] := by
  cases k <;> rfl

theorem matched_pushMatched_ne (st : ScanSt) (k : Kind) (n : String)
    (k2 : Kind) (h : k2 ≠ k) :
    (st.pushMatched k n).matched k2 = st.matched k2 := by
  cases k <;> cases k2 <;> first | rfl | exact absurd rfl h

theorem pkgs_pushMatched (st : ScanSt) (k : Kind) (n : String) :
    (st.pushMatched k n).pkgs = st.pkgs := by
  cases k <;> rfl

theorem logs_pushMatched (st : ScanSt) (k : Kind) (n : String) :
    (st.pushMatched k n).logs = st.logs := by
  cases k <;> rfl

/-- Case analysis of one entry step: either the (possibly rewritten) name is
not wanted and nothing changes; or it is wanted and an install identifier
exists, and the state gains the identifier plus active extras, loses the
name from the wanted set and records it as matched; or it is wanted, no
identifier exists, and only an error log is appended. -/
theorem procEntry_cases (cfg : Val) (theme : Option String) (kind : Kind)
    (p : Project) (st : ScanSt) (e0 : String) :
    (effEntry theme kind (st.wanted kind) e0 ∉ st.wanted kind ∧
      procEntry cfg theme kind p st e0 = st) ∨
    (∃ e inst, e = effEntry theme kind (st.wanted kind) e0 ∧
      e ∈ st.wanted kind ∧ installIdOf p = some inst ∧
      procEntry cfg theme kind p st e0 =
        (({ st with pkgs := addExtras cfg p (addPkg st.pkgs inst) }
          : ScanSt).setWanted kind ((st.wanted kind).erase e)).pushMatched kind e) ∨
    (∃ e, e = effEntry theme kind (st.wanted kind) e0 ∧
      e ∈ st.wanted kind ∧ installIdOf p = none ∧
      procEntry cfg theme kind p st e0 =
        { st with logs := st.logs ++ [Diag.error (cantInstallMsg kind e)] }) := by
  by_cases hm : effEntry theme kind (st.wanted kind) e0 ∈ st.wanted kind
  · cases hinst : installIdOf p with
    | some inst =>
        refine Or.inr (Or.inl ⟨_, inst, rfl, hm, rfl, ?_⟩)
        simp only [procEntry, hinst]
        rw [if_pos hm]
        rw [wanted_withPkgs]
    | none =>
        refine Or.inr (Or.inr ⟨_, rfl, hm, rfl, ?_⟩)
        simp only [procEntry, hinst]
        rw [if_pos hm]
  · refine Or.inl ⟨hm, ?_⟩
    simp only [procEntry]
    rw [if_neg hm]

theorem mem_addPkg (l : List String) (y x : String) :
    x ∈ addPkg l y ↔ x = y ∨ x ∈ l :=
  List.mem_insert_iff

theorem nodup_addPkg (l : List String) (y : String) (h : l.Nodup) :
    (addPkg l y).Nodup :=
  h.insert

theorem mem_foldl_addPkg (l : List String) (acc : List String) (x : String) :
    x ∈ l.foldl addPkg acc ↔ x ∈ acc ∨ x ∈ l := by
  induction l generalizing acc with
  | nil => simp
  | cons a l ih =>
      simp only [List.foldl_cons, ih, mem_addPkg, List.mem_cons]
      tauto

theorem nodup_foldl_addPkg (l : List String) (acc : List String)
    (h : acc.Nodup) : (l.foldl addPkg acc).Nodup := by
  induction l generalizing acc with
  | nil => exact h
  | cons a l ih => exact ih _ (nodup_addPkg _ _ h)

theorem mem_addExtras (cfg : Val) (p : Project) (pkgs : List String)
    (x : String) :
    x ∈ addExtras cfg p pkgs ↔
      x ∈ pkgs ∨ ∃ kp ∈ p.extra_dependencies,
        (dig cfg kp.1).isSome = true ∧ x ∈ kp.2 := by
  unfold addExtras
  generalize p.extra_dependencies = rules
  induction rules generalizing pkgs with
  | nil => simp
  | cons kp rules ih =>
      simp only [List.foldl_cons]
      by_cases h : (dig cfg kp.1).isSome = true
      · rw [if_pos h, ih, mem_foldl_addPkg]
        constructor
        · rintro ((hx | hx) | ⟨kq, hq1, hq2, hq3⟩)
          · exact Or.inl hx
          · exact Or.inr ⟨kp, List.mem_cons_self kp rules, h, hx⟩
          · exact Or.inr ⟨kq, List.mem_cons_of_mem _ hq1, hq2, hq3⟩
        · rintro (hx | ⟨kq, hq1, hq2, hq3⟩)
          · exact Or.inl (Or.inl hx)
          · rcases List.mem_cons.1 hq1 with hq | hq
            · subst hq
              exact Or.inl (Or.inr hq3)
            · exact Or.inr ⟨kq, hq, hq2, hq3⟩
      · rw [if_neg h, ih]
        constructor
        · rintro (hx | ⟨kq, hq1, hq2, hq3⟩)
          · exact Or.inl hx
          · exact Or.inr ⟨kq, List.mem_cons_of_mem _ hq1, hq2, hq3⟩
        · rintro (hx | ⟨kq, hq1, hq2, hq3⟩)
          · exact Or.inl hx
          · rcases List.mem_cons.1 hq1 with hq | hq
            · subst hq
              exact absurd hq2 h
            · exact Or.inr ⟨kq, hq, hq2, hq3⟩

theorem nodup_addExtras (cfg : Val) (p : Project) (pkgs : List String)
    (h : pkgs.Nodup) : (addExtras cfg p pkgs).Nodup := by
  unfold addExtras
  generalize p.extra_dependencies = rules
  induction rules generalizing pkgs with
  | nil => exact h
  | cons kp rules ih =>
      simp only [List.foldl_cons]
      by_cases hc : (dig cfg kp.1).isSome = true
      · rw [if_pos hc]
        exact ih _ (nodup_foldl_addPkg _ _ h)
      · rw [if_neg hc]
        exact ih _ h

theorem foldl_preserve {σ α : Type _} (P : σ → Prop) (f : σ → α → σ)
    (l : List α) (h : ∀ s a, a ∈ l → P s → P (f s a)) (s : σ) (hs : P s) :
    P (l.foldl f s) := by
  induction l generalizing s with
  | nil => exact hs
  | cons a l ih =>
      exact ih (fun s2 b hb => h s2 b (List.mem_cons_of_mem a hb)) _
        (h s a (List.mem_cons_self a l) hs)

theorem procEntry_pkgs_mono (cfg : Val) (theme : Option String) (kind : Kind)
    (p : Project) (st : ScanSt) (e0 : String) (x : String)
    (hx : x ∈ st.pkgs) : x ∈ (procEntry cfg theme kind p st e0).pkgs := by
  rcases procEntry_cases cfg theme kind p st e0 with ⟨_, heq⟩ |
    ⟨e, inst, _, _, _, heq⟩ | ⟨e, _, _, _, heq⟩
  · rw [heq]; exact hx
  · rw [heq, pkgs_pushMatched, pkgs_setWanted]
    exact (mem_addExtras _ _ _ _).2 (Or.inl ((mem_addPkg _ _ _).2 (Or.inr hx)))
  · rw [heq]; exact hx

theorem procEntry_pkgs_nodup (cfg : Val) (theme : Option String) (kind : Kind)
    (p : Project) (st : ScanSt) (e0 : String) (h : st.pkgs.Nodup) :
    (procEntry cfg theme kind p st e0).pkgs.Nodup := by
  rcases procEntry_cases cfg theme kind p st e0 with ⟨_, heq⟩ |
    ⟨e, inst, _, _, _, heq⟩ | ⟨e, _, _, _, heq⟩
  · rw [heq]; exact h
  · rw [heq, pkgs_pushMatched, pkgs_setWanted]
    exact nodup_addExtras _ _ _ (nodup_addPkg _ _ h)
  · rw [heq]; exact h

/-- Ways a project can put a string into the result set: as its PyPI
identifier, as its synthesised GitHub URL, or through one of its
extra-dependency rules. -/
def contribOf (p : Project) (x : String) : Prop :=
  p.pypi_id = some x ∨
    (∃ g, p.github_id = some g ∧ x = "git+https://github.com/" ++ g) ∨
    ∃ kp ∈ p.extra_dependencies, x ∈ kp.2

theorem installIdOf_contrib (p : Project) (inst : String)
    (h : installIdOf p = some inst) : contribOf p inst := by
  unfold installIdOf at h
  cases hp : p.pypi_id with
  | some pid =>
      simp only [hp, Option.some.injEq] at h
      exact Or.inl (by rw [hp, h])
  | none =>
      simp only [hp] at h
      cases hg : p.github_id with
      | some gid =>
          simp only [hg, Option.some.injEq] at h
          exact Or.inr (Or.inl ⟨gid, hg, h.symm⟩)
      | none => simp [hg] at h

theorem procEntry_pkgs_prov (cfg : Val) (theme : Option String) (kind : Kind)
    (p : Project) (st : ScanSt) (e0 : String) (x : String)
    (hx : x ∈ (procEntry cfg theme kind p st e0).pkgs) :
    x ∈ st.pkgs ∨ contribOf p x := by
  rcases procEntry_cases cfg theme kind p st e0 with ⟨_, heq⟩ |
    ⟨e, inst, _, _, hinst, heq⟩ | ⟨e, _, _, _, heq⟩
  · rw [heq] at hx; exact Or.inl hx
  · rw [heq, pkgs_pushMatched, pkgs_setWanted] at hx
    rcases (mem_addExtras _ _ _ _).1 hx with hx2 | ⟨kp, hkp, _, hxin⟩
    · rcases (mem_addPkg _ _ _).1 hx2 with hx3 | hx3
      · subst hx3
        exact Or.inr (installIdOf_contrib p _ hinst)
      · exact Or.inl hx3
    · exact Or.inr (Or.inr (Or.inr ⟨kp, hkp, hxin⟩))
  · rw [heq] at hx; exact Or.inl hx

theorem procKind_preserve (P : ScanSt → Prop) (cfg : Val)
    (theme : Option String) (p : Project) (kind : Kind)
    (h : ∀ st e0, P st → P (procEntry cfg theme kind p st e0)) (st : ScanSt)
    (hst : P st) : P (procKind cfg theme p kind st) :=
  foldl_preserve P _ _ (fun s a _ hs => h s a hs) st hst

theorem procProject_preserve (P : ScanSt → Prop) (cfg : Val)
    (theme : Option String) (p : Project)
    (h : ∀ kind st e0, P st → P (procEntry cfg theme kind p st e0))
    (st : ScanSt) (hst : P st) : P (procProject cfg theme p st) :=
  procKind_preserve P cfg theme p .extension (h .extension) _
    (procKind_preserve P cfg theme p .plugin (h .plugin) _
      (procKind_preserve P cfg theme p .theme (h .theme) st hst))

theorem scan_preserve (P : ScanSt → Prop) (cfg : Val)
    (theme : Option String) (projects : List Project)
    (h : ∀ p, p ∈ projects →
      ∀ kind st e0, P st → P (procEntry cfg theme kind p st e0))
    (st : ScanSt) (hst : P st) : P (scan cfg theme projects st) :=
  foldl_preserve P _ projects
    (fun s p hp hs => procProject_preserve P cfg theme p (h p hp) s hs) st hst

theorem scan_pkgs_nodup (cfg : Val) (theme : Option String)
    (projects : List Project) (st : ScanSt) (h : st.pkgs.Nodup) :
    (scan cfg theme projects st).pkgs.Nodup :=
  scan_preserve (fun s => s.pkgs.Nodup) cfg theme projects
    (fun p _ kind s e0 hs => procEntry_pkgs_nodup cfg theme kind p s e0 hs) st h

theorem scan_pkgs_mono (cfg : Val) (theme : Option String)
    (projects : List Project) (st : ScanSt) (x : String) (h : x ∈ st.pkgs) :
    x ∈ (scan cfg theme projects st).pkgs :=
  scan_preserve (fun s => x ∈ s.pkgs) cfg theme projects
    (fun p _ kind s e0 hs => procEntry_pkgs_mono cfg theme kind p s e0 x hs) st h

theorem scan_pkgs_prov (cfg : Val) (theme : Option String)
    (projects : List Project) (st : ScanSt) (x : String)
    (hx : x ∈ (scan cfg theme projects st).pkgs) :
    x ∈ st.pkgs ∨ ∃ p ∈ projects, contribOf p x := by
  refine scan_preserve
    (fun s => ∀ y, y ∈ s.pkgs → y ∈ st.pkgs ∨ ∃ p ∈ projects, contribOf p y)
    cfg theme projects ?_ st (fun y hy => Or.inl hy) x hx
  intro p hp kind s e0 hs y hy
  rcases procEntry_pkgs_prov cfg theme kind p s e0 y hy with hy2 | hy2
  · exact hs y hy2
  · exact Or.inr ⟨p, hp, hy2⟩

/-- Invariant of the scanned state relative to the initial wanted sets: all
sets are duplicate-free, the wanted set of each kind holds exactly the
initially wanted names not yet matched, and every matched name was
initially wanted. -/
def WantedInv (w0 : Kind → List String) (st : ScanSt) : Prop :=
  ∀ k, (st.wanted k).Nodup ∧ (st.matched k).Nodup ∧
    (∀ n, n ∈ st.wanted k ↔ n ∈ w0 k ∧ n ∉ st.matched k) ∧
    (∀ n, n ∈ st.matched k → n ∈ w0 k)

theorem procEntry_wantedInv (cfg : Val) (theme : Option String) (kind : Kind)
    (p : Project) (st : ScanSt) (e0 : String) (w0 : Kind → List String)
    (h : WantedInv w0 st) : WantedInv w0 (procEntry cfg theme kind p st e0) := by
  rcases procEntry_cases cfg theme kind p st e0 with ⟨_, heq⟩ |
    ⟨e, inst, he, hm, hi, heq⟩ | ⟨e, he, hm, hi, heq⟩
  · rw [heq]; exact h
  · rw [heq]
    intro k2
    obtain ⟨hwn, hmn, hiff, hsub⟩ := h k2
    by_cases hk : k2 = kind
    · subst hk
      obtain ⟨hew0, hem⟩ := (hiff e).1 hm
      refine ⟨?_, ?_, ?_, ?_⟩
      · rw [wanted_pushMatched, wanted_setWanted_self]
        exact hwn.erase e
      · rw [matched_pushMatched_self, matched_setWanted, matched_withPkgs]
        simp [List.nodup_append, hmn, List.disjoint_singleton, hem]
      · intro n
        rw [wanted_pushMatched, wanted_setWanted_self,
          matched_pushMatched_self, matched_setWanted, matched_withPkgs,
          hwn.mem_erase_iff, hiff n]
        simp only [List.mem_append, List.mem_singleton]
        tauto
      · intro n hn
        rw [matched_pushMatched_self, matched_setWanted, matched_withPkgs] at hn
        rcases List.mem_append.1 hn with hn2 | hn2
        · exact hsub n hn2
        · rw [List.mem_singleton] at hn2
          subst hn2
          exact hew0
    · rw [wanted_pushMatched, wanted_setWanted_ne _ _ _ _ hk, wanted_withPkgs,
        matched_pushMatched_ne _ _ _ _ hk, matched_setWanted, matched_withPkgs]
      exact ⟨hwn, hmn, hiff, hsub⟩
  · rw [heq]
    intro k2
    obtain ⟨hwn, hmn, hiff, hsub⟩ := h k2
    rw [wanted_withLogs, matched_withLogs]
    exact ⟨hwn, hmn, hiff, hsub⟩

theorem scan_wantedInv (cfg : Val) (theme : Option String)
    (projects : List Project) (st : ScanSt) (w0 : Kind → List String)
    (h : WantedInv w0 st) : WantedInv w0 (scan cfg theme projects st) :=
  scan_preserve (WantedInv w0) cfg theme projects
    (fun p _ kind s e0 hs => procEntry_wantedInv cfg theme kind p s e0 w0 hs)
    st h

/-- C2: over a full catalog scan started from duplicate-free wanted sets and
empty match records, the names recorded as matched (each exactly at the
moment an install identifier was resolved for it) are pairwise distinct —
so at most one project resolves each name, and once a name is matched it
can never be matched again; the wanted set of each kind ends as exactly the
initially wanted names that were never matched; and the diagnostics of
`get_deps` are computed by `fallbackAll` from precisely that post-scan
state, so the leftover names are exactly the diagnostic candidates. -/
theorem claim_C2 (cfg : Val) (theme : Option String) (projects : List Project)
    (st0 : ScanSt) (hW : ∀ k, (st0.wanted k).Nodup)
    (hM : ∀ k, st0.matched k = []) :
    (∀ k, ((scan cfg theme projects st0).matched k).Nodup ∧
      (∀ n, n ∈ (scan cfg theme projects st0).wanted k ↔
        n ∈ st0.wanted k ∧ n ∉ (scan cfg theme projects st0).matched k) ∧
      (∀ n, n ∈ (scan cfg theme projects st0).matched k → n ∈ st0.wanted k)) ∧
    (∀ eps st1, setup cfg = .ok st1 →
      get_deps cfg projects eps = .ok
        { packages := sortStrings (scan cfg (themeNs cfg) projects st1).pkgs
          logs := (scan cfg (themeNs cfg) projects st1).logs ++
            fallbackAll eps (scan cfg (themeNs cfg) projects st1) }) := by
  have hinv : WantedInv st0.wanted st0 := by
    intro k
    refine ⟨hW k, ?_, ?_, ?_⟩
    · rw [hM k]
      exact List.nodup_nil
    · intro n
      rw [hM k]
      simp
    · intro n hn
      rw [hM k] at hn
      cases hn
  have hfin := scan_wantedInv cfg theme projects st0 st0.wanted hinv
  constructor
  · intro k
    obtain ⟨hwn, hmn, hiff, hsub⟩ := hfin k
    exact ⟨hmn, hiff, hsub⟩
  · intro eps st1 hsetup
    simp only [get_deps, hsetup]

/-- Initial state for the concrete C2 run: one wanted plugin name. -/
def c2St : ScanSt :=
  { pkgs := [], wantedTheme := [], wantedPlugin := ["a"],
    wantedExtension := [], matchedTheme := [], matchedPlugin := [],
    matchedExtension := [], logs := [] }

/-- Catalog project for the concrete C2 run. -/
def c2Proj : Project :=
  { mkdocs_plugin := ["a"], pypi_id := some "x" }

/-- Witness for C2: the hypotheses hold for the concrete initial state, and
the match record of the scanned state is duplicate-free. -/
theorem claim_C2_witness :
    (∀ k, (c2St.wanted k).Nodup) ∧ (∀ k, c2St.matched k = []) ∧
    ((scan (.map []) none [c2Proj] c2St).matched Kind.plugin).Nodup := by
  refine ⟨fun k => by cases k <;> decide, fun k => by cases k <;> rfl, ?_⟩
  exact ((claim_C2 (.map []) none [c2Proj] c2St
    (fun k => by cases k <;> decide) (fun k => by cases k <;> rfl)).1
    Kind.plugin).1

/-- C6: when a project matches a wanted name and resolves an install
identifier, the result set afterwards holds exactly the previous packages,
the identifier, and the packages of every extra-dependency rule whose
dotted path resolves in the configuration (to anything, including null) —
a rule whose path is not found contributes nothing; and a project none of
whose declared names matches changes nothing at all, in particular it
contributes none of its extra dependencies. -/
theorem claim_C6 (cfg : Val) (theme : Option String) (kind : Kind)
    (p : Project) (st : ScanSt) (e0 : String) :
    (∀ inst, effEntry theme kind (st.wanted kind) e0 ∈ st.wanted kind →
      installIdOf p = some inst →
      ∀ x, x ∈ (procEntry cfg theme kind p st e0).pkgs ↔
        (x ∈ st.pkgs ∨ x = inst ∨
          ∃ kp ∈ p.extra_dependencies,
            (dig cfg kp.1).isSome = true ∧ x ∈ kp.2)) ∧
    ((∀ k e, e ∈ availFor p k → effEntry theme k (st.wanted k) e ∉ st.wanted k) →
      procProject cfg theme p st = st) := by
  constructor
  · intro inst hm hinst x
    rcases procEntry_cases cfg theme kind p st e0 with ⟨hnm, _⟩ |
      ⟨e, inst2, he, hm2, hinst2, heq⟩ | ⟨e, he, hm2, hinst2, heq⟩
    · exact absurd hm hnm
    · have hii : inst2 = inst := by
        rw [hinst] at hinst2
        injection hinst2 with hv
        exact hv.symm
      subst hii
      rw [heq, pkgs_pushMatched, pkgs_setWanted, mem_addExtras, mem_addPkg]
      tauto
    · rw [hinst2] at hinst
      cases hinst
  · intro hno
    have hstep : ∀ k s e, e ∈ availFor p k → s = st →
        procEntry cfg theme k p s e = st := by
      intro k s e he hs
      subst hs
      rcases procEntry_cases cfg theme k p s e with ⟨_, heq⟩ |
        ⟨e2, inst, he2, hm2, _, _⟩ | ⟨e2, he2, hm2, _, _⟩
      · exact heq
      · rw [he2] at hm2
        exact absurd hm2 (hno k e he)
      · rw [he2] at hm2
        exact absurd hm2 (hno k e he)
    have hk : ∀ k s, s = st → procKind cfg theme p k s = st := by
      intro k s hs
      exact foldl_preserve (fun s2 => s2 = st) _ _
        (fun s2 a ha hs2 => hstep k s2 a ha hs2) s hs
    unfold procProject
    rw [hk Kind.theme st rfl, hk Kind.plugin st rfl, hk Kind.extension st rfl]

/-- Configuration for the concrete C6 run: a present (null) locale. -/
def c6Cfg : Val :=
  .map [("theme", .map [("name", .str "m"), ("locale", .vnull)])]

/-- Project for the concrete C6 run: one active and one inactive
extra-dependency rule. -/
def c6Proj : Project :=
  { mkdocs_plugin := ["pl"], pypi_id := some "base",
    extra_dependencies := [("theme.locale", ["extra1"]), ("nope.key", ["extra2"])] }

/-- Initial state for the concrete C6 run. -/
def c6St : ScanSt :=
  { pkgs := [], wantedTheme := [], wantedPlugin := ["pl"],
    wantedExtension := [], matchedTheme := [], matchedPlugin := [],
    matchedExtension := [], logs := [] }

/-- Witness for C6: on the concrete run the matched project adds its
identifier and the null-locale extra, and the membership equivalence holds
at the contributed extra package. -/
theorem claim_C6_witness :
    effEntry none Kind.plugin (c6St.wanted Kind.plugin) "pl" ∈
      c6St.wanted Kind.plugin ∧
    installIdOf c6Proj = some "base" ∧
    ("extra1" ∈ (procEntry c6Cfg none Kind.plugin c6Proj c6St "pl").pkgs ↔
      ("extra1" ∈ c6St.pkgs ∨ "extra1" = "base" ∨
        ∃ kp ∈ c6Proj.extra_dependencies,
          (dig c6Cfg kp.1).isSome = true ∧ "extra1" ∈ kp.2)) := by
  refine ⟨by decide, rfl, ?_⟩
  exact (claim_C6 c6Cfg none Kind.plugin c6Proj c6St "pl").1 "base"
    (by decide) rfl "extra1"

/-- C7: when a declared name matches a wanted capability, the install
identifier is `pypi_id` when that field is present, else the GitHub URL
synthesised from `github_id`; in both cases it enters the result set, the
name is removed from the wanted set and no error is logged.  When neither
field is present, the only change is an appended error log: no package and
no extras are added, and the matched name stays in the wanted set, so later
projects may still match it and it remains a diagnostic candidate. -/
theorem claim_C7 (cfg : Val) (theme : Option String) (kind : Kind)
    (p : Project) (st : ScanSt) (e0 : String)
    (hm : effEntry theme kind (st.wanted kind) e0 ∈ st.wanted kind) :
    (∀ pid, p.pypi_id = some pid →
      installIdOf p = some pid ∧
      pid ∈ (procEntry cfg theme kind p st e0).pkgs ∧
      (procEntry cfg theme kind p st e0).wanted kind =
        (st.wanted kind).erase (effEntry theme kind (st.wanted kind) e0) ∧
      (procEntry cfg theme kind p st e0).logs = st.logs) ∧
    (p.pypi_id = none → ∀ gid, p.github_id = some gid →
      installIdOf p = some ("git+https://github.com/" ++ gid) ∧
      ("git+https://github.com/" ++ gid) ∈
        (procEntry cfg theme kind p st e0).pkgs ∧
      (procEntry cfg theme kind p st e0).wanted kind =
        (st.wanted kind).erase (effEntry theme kind (st.wanted kind) e0) ∧
      (procEntry cfg theme kind p st e0).logs = st.logs) ∧
    (p.pypi_id = none → p.github_id = none →
      procEntry cfg theme kind p st e0 =
        { st with logs := st.logs ++ [Diag.error (cantInstallMsg kind
            (effEntry theme kind (st.wanted kind) e0))] }) := by
  have hmain : ∀ inst, installIdOf p = some inst →
      inst ∈ (procEntry cfg theme kind p st e0).pkgs ∧
      (procEntry cfg theme kind p st e0).wanted kind =
        (st.wanted kind).erase (effEntry theme kind (st.wanted kind) e0) ∧
      (procEntry cfg theme kind p st e0).logs = st.logs := by
    intro inst hinst
    rcases procEntry_cases cfg theme kind p st e0 with ⟨hnm, _⟩ |
      ⟨e, inst2, he, hm2, hinst2, heq⟩ | ⟨e, he, hm2, hinst2, heq⟩
    · exact absurd hm hnm
    · have hii : inst2 = inst := by
        rw [hinst] at hinst2
        injection hinst2 with hv
        exact hv.symm
      subst hii
      subst he
      refine ⟨?_, ?_, ?_⟩
      · rw [heq, pkgs_pushMatched, pkgs_setWanted]
        exact (mem_addExtras _ _ _ _).2
          (Or.inl ((mem_addPkg _ _ _).2 (Or.inl rfl)))
      · rw [heq, wanted_pushMatched, wanted_setWanted_self]
      · rw [heq, logs_pushMatched, logs_setWanted]
    · rw [hinst2] at hinst
      cases hinst
  refine ⟨?_, ?_, ?_⟩
  · intro pid hp
    have hinst : installIdOf p = some pid := by
      simp only [installIdOf, hp]
    exact ⟨hinst, hmain pid hinst⟩
  · intro hp gid hg
    have hinst : installIdOf p = some ("git+https://github.com/" ++ gid) := by
      simp only [installIdOf, hp, hg]
    exact ⟨hinst, hmain _ hinst⟩
  · intro hp hg
    have hinst : installIdOf p = none := by
      simp only [installIdOf, hp, hg]
    rcases procEntry_cases cfg theme kind p st e0 with ⟨hnm, _⟩ |
      ⟨e, inst2, he, hm2, hinst2, heq⟩ | ⟨e, he, hm2, hinst2, heq⟩
    · exact absurd hm hnm
    · rw [hinst] at hinst2
      cases hinst2
    · subst he
      exact heq

/-- Project for the concrete C7 run: a declared plugin with neither
`pypi_id` nor `github_id`. -/
def c7Proj : Project :=
  { mkdocs_plugin := ["pl"] }

/-- Witness for C7: on the no-identifier project the step only appends an
error log, leaving the wanted set intact. -/
theorem claim_C7_witness :
    effEntry none Kind.plugin (c6St.wanted Kind.plugin) "pl" ∈
      c6St.wanted Kind.plugin ∧
    procEntry c6Cfg none Kind.plugin c7Proj c6St "pl" =
      { c6St with logs := c6St.logs ++ [Diag.error (cantInstallMsg Kind.plugin
          (effEntry none Kind.plugin (c6St.wanted Kind.plugin) "pl"))] } := by
  refine ⟨by decide, ?_⟩
  exact (claim_C7 c6Cfg none Kind.plugin c7Proj c6St "pl" (by decide)).2.2
    rfl rfl

theorem charListLe_cons_iff (a b : Char) (as bs : List Char) :
    charListLe (a :: as) (b :: bs) = true ↔
      a < b ∨ (a = b ∧ charListLe as bs = true) := by
  rcases lt_trichotomy a b with h | h | h
  · simp [charListLe, h]
  · subst h
    simp [charListLe, lt_irrefl]
  · have h1 : ¬ a < b := asymm h
    have h2 : a ≠ b := ne_of_gt h
    simp [charListLe, h1, h, h2]

theorem charListLe_total (as bs : List Char) :
    charListLe as bs = true ∨ charListLe bs as = true := by
  induction as generalizing bs with
  | nil => exact Or.inl rfl
  | cons a as ih =>
      cases bs with
      | nil => exact Or.inr rfl
      | cons b bs =>
          rcases lt_trichotomy a b with h | h | h
          · exact Or.inl ((charListLe_cons_iff a b as bs).2 (Or.inl h))
          · subst h
            rcases ih bs with h2 | h2
            · exact Or.inl ((charListLe_cons_iff a a as bs).2 (Or.inr ⟨rfl, h2⟩))
            · exact Or.inr ((charListLe_cons_iff a a bs as).2 (Or.inr ⟨rfl, h2⟩))
          · exact Or.inr ((charListLe_cons_iff b a bs as).2 (Or.inl h))

theorem charListLe_trans (as bs cs : List Char)
    (h1 : charListLe as bs = true) (h2 : charListLe bs cs = true) :
    charListLe as cs = true := by
  induction as generalizing bs cs with
  | nil => rfl
  | cons a as ih =>
      cases bs with
      | nil => simp [charListLe] at h1
      | cons b bs =>
          cases cs with
          | nil => simp [charListLe] at h2
          | cons c cs =>
              rw [charListLe_cons_iff] at h1 h2 ⊢
              rcases h1 with h1 | ⟨h1e, h1r⟩
              · rcases h2 with h2 | ⟨h2e, h2r⟩
                · exact Or.inl (lt_trans h1 h2)
                · subst h2e
                  exact Or.inl h1
              · subst h1e
                rcases h2 with h2 | ⟨h2e, h2r⟩
                · exact Or.inl h2
                · exact Or.inr ⟨h2e, ih bs cs h1r h2r⟩

instance : IsTotal String strLeR :=
  ⟨fun a b => charListLe_total a.data b.data⟩

instance : IsTrans String strLeR :=
  ⟨fun a b c h1 h2 => charListLe_trans a.data b.data c.data h1 h2⟩

theorem sortStrings_pairwise (l : List String) :
    (sortStrings l).Pairwise strLeR :=
  List.sorted_insertionSort strLeR l

theorem sortStrings_perm (l : List String) : (sortStrings l).Perm l :=
  List.perm_insertionSort strLeR l

theorem themesList_nodup (t : Option Val) : (themesList t).Nodup := by
  match t with
  | none => exact List.nodup_nil
  | some (.str s) =>
      simp only [themesList]
      by_cases h : s = String.mk []
      · rw [if_pos h]
        exact List.nodup_nil
      · rw [if_neg h]
        exact List.nodup_singleton s
  | some .vnull | some (.vbool _) | some (.vint _) | some (.map _)
  | some (.seq _) => exact List.nodup_nil

theorem seedPkgs_nodup (cfg : Val) : (seedPkgs cfg).Nodup := by
  unfold seedPkgs
  split_ifs <;> simp

/-- Inversion of a successful `setup`: the initial state has the seed
packages and logs, empty match records, and duplicate-free wanted sets. -/
theorem setup_ok_inv (cfg : Val) (st1 : ScanSt) (h : setup cfg = .ok st1) :
    st1.pkgs = seedPkgs cfg ∧ st1.logs = seedLogs cfg ∧
    (∀ k, st1.matched k = []) ∧ (∀ k, (st1.wanted k).Nodup) := by
  unfold setup at h
  cases cfg with
  | str s => cases h
  | vnull => cases h
  | vbool b => cases h
  | vint i => cases h
  | seq l => cases h
  | map m =>
      cases hpl : stringsOfDig (dig (.map m) "plugins") with
      | error e => rw [hpl] at h; cases h
      | ok pl =>
          cases hex : stringsOfDig (dig (.map m) "markdown_extensions") with
          | error e => rw [hpl, hex] at h; cases h
          | ok ex =>
              rw [hpl, hex] at h
              injection h with h2
              subst h2
              refine ⟨rfl, rfl, fun k => by cases k <;> rfl, fun k => ?_⟩
              cases k with
              | theme => exact (themesList_nodup (themeOf (.map m))).filter _
              | plugin => exact (List.nodup_dedup pl).filter _
              | extension => exact List.nodup_dedup ex

/-- C8: whenever `get_deps` returns, the returned package sequence is
strictly sorted in the lexicographic code-point order (hence its elements
are pairwise distinct), for every configuration, catalog and registry. -/
theorem claim_C8 (cfg : Val) (projects : List Project) (eps : EPLookup)
    (out : GDOut) (h : get_deps cfg projects eps = .ok out) :
    out.packages.Pairwise (fun a b => strLe a b = true ∧ a ≠ b) := by
  cases hsetup : setup cfg with
  | error e =>
      unfold get_deps at h
      rw [hsetup] at h
      cases h
  | ok st1 =>
      unfold get_deps at h
      rw [hsetup] at h
      injection h with h2
      have hpk : out.packages =
          sortStrings (scan cfg (themeNs cfg) projects st1).pkgs := by
        rw [← h2]
      obtain ⟨hp1, _, _, _⟩ := setup_ok_inv cfg st1 hsetup
      have hnd0 : st1.pkgs.Nodup := by
        rw [hp1]
        exact seedPkgs_nodup cfg
      have hnd : (scan cfg (themeNs cfg) projects st1).pkgs.Nodup :=
        scan_pkgs_nodup cfg (themeNs cfg) projects st1 hnd0
      have hndS : (sortStrings (scan cfg (themeNs cfg) projects st1).pkgs).Nodup :=
        (sortStrings_perm _).nodup_iff.2 hnd
      rw [hpk]
      exact (sortStrings_pairwise _).and hndS

/-- Witness for C8: a concrete run returns, and its package list satisfies
the strict sortedness property. -/
theorem claim_C8_witness :
    get_deps (.map [("site_name", .str "T")]) [] epsEmpty =
      .ok { packages := ["mkdocs"], logs := [] } ∧
    (["mkdocs"] : List String).Pairwise
      (fun a b => strLe a b = true ∧ a ≠ b) := by
  refine ⟨rfl, ?_⟩
  exact claim_C8 (.map [("site_name", .str "T")]) [] epsEmpty
    { packages := ["mkdocs"], logs := [] } rfl

/-- C9: after the scan, the fallback emits, per kind and per leftover name
in sorted order: a warning with the text built from the capitalised kind and
quoted name when the name has no local registration; an informational note
with the same text plus the locally-installed suffix (and the owning
distribution when known and non-empty) when a registration exists whose
distribution is unknown or differs from the two built-ins; and nothing when
the registration belongs to `mkdocs` or `Markdown`; `fallbackAll` applies
this to the three wanted sets in kind order. -/
theorem claim_C9 (eps : EPLookup) (kind : Kind) (wanted : List String)
    (st : ScanSt) :
    fallbackKind eps kind wanted = (sortStrings wanted).flatMap (fun n =>
      match eps kind.entryPointsKey n with
      | none => [Diag.warn (pyCapitalize kind.str ++ " " ++ sq ++ n ++ sq ++
          " is not provided by any registered project")]
      | some dist =>
          if dist = some "mkdocs" ∨ dist = some "Markdown" then []
          else [Diag.info (pyCapitalize kind.str ++ " " ++ sq ++ n ++ sq ++
            " is not provided by any registered project" ++
            " but is installed locally" ++
            (match dist with
             | some dn =>
                 if dn = String.mk [] then String.mk []
                 else " from " ++ sq ++ dn ++ sq
             | none => String.mk []))]) ∧
    fallbackAll eps st =
      fallbackKind eps Kind.theme (st.wanted Kind.theme) ++
        fallbackKind eps Kind.plugin (st.wanted Kind.plugin) ++
        fallbackKind eps Kind.extension (st.wanted Kind.extension) := by
  constructor
  · unfold fallbackKind
    congr 1
    funext n
    simp only [fallbackName, notProvidedMsg]
    cases hep : eps kind.entryPointsKey n with
    | none =>
        rw [if_pos ⟨by simp, by simp⟩]
    | some d =>
        dsimp only
        by_cases hd : d = some "mkdocs" ∨ d = some "Markdown"
        · rw [if_pos hd, if_neg (by tauto)]
        · rw [if_neg hd, if_pos (by tauto)]
          cases d with
          | none =>
              dsimp only
              rw [String.append_empty]
          | some dn =>
              dsimp only
              by_cases hdn : dn = String.mk []
              · rw [if_pos hdn, if_pos hdn, String.append_empty]
              · rw [if_neg hdn, if_neg hdn]
                simp only [String.append_assoc]
  · rfl

/-- Scalar configuration values that are not iterable: `tuple(...)` on them
raises `TypeError`. -/
def badScalar : Val → Bool
  | .vnull => true
  | .vbool _ => true
  | .vint _ => true
  | _ => false

/-- C10: when the `plugins` or `markdown_extensions` key is present with a
scalar value that is neither a string nor a mapping nor a sequence (null,
boolean or number), `get_deps` raises `TypeError` from coercing that value,
for every catalog and registry, instead of treating the request set as
empty or emitting a diagnostic. -/
theorem claim_C10 (m : List (String × Val))
    (hbad : (∃ v, lookupKey m "plugins" = some v ∧ badScalar v = true) ∨
      (∃ v, lookupKey m "markdown_extensions" = some v ∧ badScalar v = true)) :
    ∀ projects eps, get_deps (.map m) projects eps = .error .typeError := by
  intro projects eps
  have hdig : ∀ key v, lookupKey m key = some v → badScalar v = true →
      stringsOfDig (digGo (.map m) [key]) = .error () := by
    intro key v hv hbv
    simp only [digGo, lookupVal, hv]
    cases v with
    | vnull => rfl
    | vbool b => rfl
    | vint i => rfl
    | str s => simp [badScalar] at hbv
    | map mm => simp [badScalar] at hbv
    | seq l => simp [badScalar] at hbv
  have hsetup : setup (.map m) = .error .typeError := by
    unfold setup
    rcases hbad with ⟨v, hv, hbv⟩ | ⟨v, hv, hbv⟩
    · have h1 : stringsOfDig (dig (.map m) "plugins") = .error () := by
        have hsplit : splitChar (Char.ofNat 46) "plugins" = ["plugins"] := rfl
        unfold dig
        rw [hsplit]
        exact hdig "plugins" v hv hbv
      rw [h1]
    · have h2 : stringsOfDig (dig (.map m) "markdown_extensions") =
          .error () := by
        have hsplit : splitChar (Char.ofNat 46) "markdown_extensions" =
            ["markdown_extensions"] := rfl
        unfold dig
        rw [hsplit]
        exact hdig "markdown_extensions" v hv hbv
      rw [h2]
      cases stringsOfDig (dig (.map m) "plugins") <;> rfl
  unfold get_deps
  rw [hsetup]

/-- Witness for C10: `plugins: null` makes `get_deps` raise `TypeError`. -/
theorem claim_C10_witness :
    get_deps (.map [("plugins", Val.vnull)]) [] epsEmpty =
      .error .typeError :=
  claim_C10 [("plugins", Val.vnull)] (Or.inl ⟨Val.vnull, rfl, rfl⟩) [] epsEmpty

/-- Configuration for the C1 counterexample: a marker key is present and
the locale is not English. -/
def c1Cfg : Val :=
  .map [("theme", .map [("name", .str "x"), ("locale", .str "uk")])]

/-- Catalog project for the C1 counterexample, whose PyPI identifier is the
base package name itself. -/
def c1Proj : Project :=
  { mkdocs_theme := ["x"], pypi_id := some "mkdocs" }

/-- C1, counterexample: on a valid-looking configuration with locale `uk`
and a catalog whose matching project installs from the PyPI name `mkdocs`,
the returned collection contains both `mkdocs` and `mkdocs[i18n]` — not
exactly one of them as the claim states for every catalog. -/
theorem claim_C1_counterexample :
    markersPresent c1Cfg = true ∧
    localeSelectsI18n c1Cfg = true ∧
    get_deps c1Cfg [c1Proj] epsEmpty =
      .ok { packages := ["mkdocs", "mkdocs[i18n]"], logs := [] } ∧
    "mkdocs" ∈ ["mkdocs", "mkdocs[i18n]"] ∧
    "mkdocs[i18n]" ∈ ["mkdocs", "mkdocs[i18n]"] := by
  exact ⟨rfl, rfl, rfl, by decide, by decide⟩

/-- Projects that never contribute either base identifier directly: the
PyPI field is neither base name and no extra-dependency rule lists one
(a GitHub-derived identifier can never equal them). -/
def cleanOfBase (p : Project) : Prop :=
  p.pypi_id ≠ some "mkdocs" ∧ p.pypi_id ≠ some "mkdocs[i18n]" ∧
    ∀ kp ∈ p.extra_dependencies, "mkdocs" ∉ kp.2 ∧ "mkdocs[i18n]" ∉ kp.2

theorem git_prefix_len (g : String) :
    strLen ("git+https://github.com/" ++ g) = 23 + strLen g := by
  unfold strLen
  rw [String.data_append, List.length_append]
  have h : ("git+https://github.com/" : String).data.length = 23 := rfl
  rw [h]

theorem mkdocs_ne_git (g : String) :
    ("mkdocs" : String) ≠ "git+https://github.com/" ++ g := by
  intro h
  have h2 := congrArg strLen h
  rw [git_prefix_len] at h2
  have h3 : strLen "mkdocs" = 6 := rfl
  rw [h3] at h2
  omega

theorem i18n_ne_git (g : String) :
    ("mkdocs[i18n]" : String) ≠ "git+https://github.com/" ++ g := by
  intro h
  have h2 := congrArg strLen h
  rw [git_prefix_len] at h2
  have h3 : strLen "mkdocs[i18n]" = 12 := rfl
  rw [h3] at h2
  omega

theorem seedPkgs_i18n (cfg : Val) (hm : markersPresent cfg = true)
    (hl : localeSelectsI18n cfg = true) : seedPkgs cfg = ["mkdocs[i18n]"] := by
  unfold seedPkgs
  rw [if_pos hm, if_pos hl]

theorem seedPkgs_base (cfg : Val) (hm : markersPresent cfg = true)
    (hl : localeSelectsI18n cfg = false) : seedPkgs cfg = ["mkdocs"] := by
  unfold seedPkgs
  rw [if_pos hm, if_neg (by simp [hl])]

/-- C1, amended: on a configuration with at least one marker key, the
returned collection always contains the identifier chosen by the locale
rule — `mkdocs[i18n]` when `theme.locale` resolves to a present value
(including null) other than `en`, else `mkdocs`; and it contains exactly
one of the two whenever no catalog project itself names `mkdocs` or
`mkdocs[i18n]` as its PyPI identifier or inside an extra-dependency rule. -/
theorem claim_C1_amended (cfg : Val) (projects : List Project)
    (eps : EPLookup) (out : GDOut) (h : get_deps cfg projects eps = .ok out)
    (hmark : markersPresent cfg = true) :
    (localeSelectsI18n cfg = true → "mkdocs[i18n]" ∈ out.packages) ∧
    (localeSelectsI18n cfg = false → "mkdocs" ∈ out.packages) ∧
    ((∀ p ∈ projects, cleanOfBase p) →
      ¬("mkdocs" ∈ out.packages ∧ "mkdocs[i18n]" ∈ out.packages)) := by
  cases hsetup : setup cfg with
  | error e =>
      unfold get_deps at h
      rw [hsetup] at h
      cases h
  | ok st1 =>
      unfold get_deps at h
      rw [hsetup] at h
      injection h with h2
      obtain ⟨hp1, _, _, _⟩ := setup_ok_inv cfg st1 hsetup
      have hmemiff : ∀ x, x ∈ out.packages ↔
          x ∈ (scan cfg (themeNs cfg) projects st1).pkgs := by
        intro x
        have hout : out.packages =
            sortStrings (scan cfg (themeNs cfg) projects st1).pkgs := by
          rw [← h2]
        rw [hout]
        exact (sortStrings_perm _).mem_iff
      refine ⟨?_, ?_, ?_⟩
      · intro hloc
        rw [hmemiff]
        apply scan_pkgs_mono
        rw [hp1, seedPkgs_i18n cfg hmark hloc]
        exact List.mem_singleton.2 rfl
      · intro hloc
        rw [hmemiff]
        apply scan_pkgs_mono
        rw [hp1, seedPkgs_base cfg hmark hloc]
        exact List.mem_singleton.2 rfl
      · rintro hclean ⟨hb, hi⟩
        rw [hmemiff] at hb hi
        cases hloc : localeSelectsI18n cfg with
        | true =>
            rcases scan_pkgs_prov cfg (themeNs cfg) projects st1 "mkdocs" hb
              with hseed | ⟨p, hp, hc⟩
            · rw [hp1, seedPkgs_i18n cfg hmark hloc] at hseed
              exact absurd (List.mem_singleton.1 hseed) (by decide)
            · rcases hc with hcp | ⟨g, hg, hgit⟩ | ⟨kp, hkp, hxkp⟩
              · exact absurd hcp (hclean p hp).1
              · exact mkdocs_ne_git g hgit
              · exact ((hclean p hp).2.2 kp hkp).1 hxkp
        | false =>
            rcases scan_pkgs_prov cfg (themeNs cfg) projects st1 "mkdocs[i18n]"
              hi with hseed | ⟨p, hp, hc⟩
            · rw [hp1, seedPkgs_base cfg hmark hloc] at hseed
              exact absurd (List.mem_singleton.1 hseed) (by decide)
            · rcases hc with hcp | ⟨g, hg, hgit⟩ | ⟨kp, hkp, hxkp⟩
              · exact absurd hcp (hclean p hp).2.1
              · exact i18n_ne_git g hgit
              · exact ((hclean p hp).2.2 kp hkp).2 hxkp

/-- Witness for C1 (amended): a marker-only configuration with no locale
yields a run containing `mkdocs`. -/
theorem claim_C1_witness :
    markersPresent (Val.map [("site_name", Val.str "T")]) = true ∧
    localeSelectsI18n (Val.map [("site_name", Val.str "T")]) = false ∧
    "mkdocs" ∈ ({ packages := ["mkdocs"], logs := [] } : GDOut).packages := by
  refine ⟨rfl, rfl, ?_⟩
  exact (claim_C1_amended (.map [("site_name", .str "T")]) [] epsEmpty
    { packages := ["mkdocs"], logs := [] } rfl rfl).2.1 rfl

end MkdocsGetDeps
